import Mathlib

/-!
Verification of the chunk scorer (`lm_eval/tasks/bel_glue/utils.py`) and the
transformation filters (`lm_eval/filters/transformation.py`).

Modelling conventions:
* Python strings are `List Char`; a BIO/BIOES tag is a `List Char`.
* A Python function that can raise an exception is `Option`- or `Except`-valued;
  the value `none` / `Except.error e` stands for a raised exception.
* A `defaultdict(int)` counter whose values are only ever incremented by 1 is
  represented by the list of its increment keys, in increment order: the value
  stored at key `k` is the number of occurrences of `k` in the list, and the sum
  of all values is the length of the list.
* Python `float` arithmetic on these small metric computations is modelled by
  exact rational arithmetic (`ℚ`).
-/

/-- The tag `'O'` (outside any chunk). -/
def oTag : List Char := ['O']

/-- Python `s.split('-', maxsplit=1)` restricted to the case used by the code:
returns the part before the first `'-'` and the part after it, or `none` when
the string contains no `'-'` (in which case the Python tuple unpacking
`prefix, chunk_type = ...` raises). -/
def splitFirstDash : List Char → Option (List Char × List Char)
  | [] => none
  | c :: cs =>
    if c = '-' then some ([], cs)
    else
      match splitFirstDash cs with
      | some (p, r) => some (c :: p, r)
      | none => none

/-- `_split_tag`: split a chunk tag into its IOBES head part and chunk type.
`'O'` maps to `('O', None)`; any other tag is split on the first `'-'`. -/
def split_tag (t : List Char) : Option (List Char × Option (List Char)) :=
  if t = oTag then some (oTag, none)
  else
    match splitFirstDash t with
    | some (p, ty) => some (p, some ty)
    | none => none

/-- The Python list literal `['B', 'S']` of one-character strings. -/
def listBS : List (List Char) := [['B'], ['S']]

/-- The Python list literal `['E', 'S']` of one-character strings. -/
def listES : List (List Char) := [['E'], ['S']]

/-- `_is_chunk_end(prev_tag, tag)`: did the previous chunk end between the
previous and the current word? -/
def is_chunk_end (prev_tag tag : List Char) : Option Bool :=
  match split_tag prev_tag, split_tag tag with
  | some (pref1, ty1), some (pref2, ty2) =>
    if pref1 = oTag then some false
    else if pref2 = oTag then some (decide (pref1 ≠ oTag))
    else if ty1 ≠ ty2 then some true
    else some (decide (pref2 ∈ listBS) || decide (pref1 ∈ listES))
  | _, _ => none

/-- `_is_chunk_start(prev_tag, tag)`: did a new chunk start between the
previous and the current word? -/
def is_chunk_start (prev_tag tag : List Char) : Option Bool :=
  match split_tag prev_tag, split_tag tag with
  | some (pref1, ty1), some (pref2, ty2) =>
    if pref2 = oTag then some false
    else if pref1 = oTag then some (decide (pref2 ≠ oTag))
    else if ty1 ≠ ty2 then some true
    else some (decide (pref2 ∈ listBS) || decide (pref1 ∈ listES))
  | _, _ => none

/-- The chunk type of a tag, as the spec's data model defines it:
`None` for `'O'`, otherwise the part after the first `'-'`. -/
def tagTy (t : List Char) : Option (List Char) :=
  match split_tag t with
  | some (_, ty) => ty
  | none => none

/-- The IOBES head part of a tag (the part before the first `'-'`,
or `'O'` for the tag `'O'`). -/
def tagHead (t : List Char) : List Char :=
  match split_tag t with
  | some (p, _) => p
  | none => []

/-- The chunk type of a non-`'O'` tag, with junk default `[]` (only used on
tags whose type exists). -/
def tagTyD (t : List Char) : List Char := (tagTy t).getD []

/-- The spec's chunk-end decision chain, word for word: false if `prev` is
`O`; else true if `cur` is `O`; else true if the types differ; else true iff
`cur`'s head is in `{B,S}` or `prev`'s head is in `{E,S}`. -/
def chunkEndSpec (prev cur : List Char) : Bool :=
  if prev = oTag then false
  else if cur = oTag then true
  else if tagTy prev ≠ tagTy cur then true
  else decide (tagHead cur ∈ listBS) || decide (tagHead prev ∈ listES)

/-- The spec's chunk-start decision chain, the symmetric mirror: false if
`cur` is `O`; else true if `prev` is `O`; else true if the types differ; else
true iff `cur`'s head is in `{B,S}` or `prev`'s head is in `{E,S}`. -/
def chunkStartSpec (prev cur : List Char) : Bool :=
  if cur = oTag then false
  else if prev = oTag then true
  else if tagTy prev ≠ tagTy cur then true
  else decide (tagHead cur ∈ listBS) || decide (tagHead prev ∈ listES)

/-- The four IOBES head characters of the spec's data model. -/
def bies : List Char := ['B', 'I', 'E', 'S']

/-- Well-formed tag test for the spec's data model: the literal `'O'`, or a
head character in `{B,I,E,S}` followed by `'-'` and a free-form type. -/
def validTagB (t : List Char) : Bool :=
  decide (t = oTag) ||
    match splitFirstDash t with
    | some (p, _) => decide (p ∈ ([['B'], ['I'], ['E'], ['S']] : List (List Char)))
    | none => false

/-- A tag is well formed per the spec's data model. -/
def ValidTag (t : List Char) : Prop := validTagB t = true

instance (t : List Char) : Decidable (ValidTag t) := by
  unfold ValidTag; infer_instance

/-- The loop state of `_count_chunks`: the six counters (as increment-key
lists), the previous gold and predicted tags, and the open correct-chunk
marker (`none` is Python's `None`). -/
structure CCState where
  cc : List (List Char)
  tc : List (Option (List Char))
  pc : List (Option (List Char))
  ccnt : List (List Char)
  tcnt : List (List Char)
  pcnt : List (List Char)
  prevT : List Char
  prevP : List Char
  marker : Option (List Char)

/-- The second half of the `_count_chunks` loop body (lines 144-154): the two
chunk-start tests, the per-type chunk counters, the marker assignment and the
previous-tag update. `cc` and `marker0` are the correct-chunk counter and the
marker as left by the chunk-end logic. -/
def ccStart (cc : List (List Char)) (marker0 : Option (List Char))
    (ccnt tcnt pcnt : List (List Char)) (st : CCState) (tt pt : List Char)
    (true_type pred_type : Option (List Char)) : Option CCState :=
  match is_chunk_start st.prevT tt, is_chunk_start st.prevP pt with
  | some true_start, some pred_start =>
    some ⟨cc,
      (if true_start then st.tc ++ [true_type] else st.tc),
      (if pred_start then st.pc ++ [pred_type] else st.pc),
      ccnt, tcnt, pcnt, tt, pt,
      (if true_start && pred_start && decide (true_type = pred_type)
        then true_type else marker0)⟩
  | _, _ => none

/-- One iteration of the `_count_chunks` loop (lines 125-154) on the tag pair
`(tt, pt)`: per-tag counters, then the chunk-end logic guarded by an open
marker, then the chunk-start logic via `ccStart`. -/
def ccStep (st : CCState) (tt pt : List Char) : Option CCState :=
  match split_tag tt, split_tag pt with
  | some (_, true_type), some (_, pred_type) =>
    let ccnt := if tt = pt then st.ccnt ++ [tt] else st.ccnt
    let tcnt := st.tcnt ++ [tt]
    let pcnt := st.pcnt ++ [pt]
    match st.marker with
    | some mk =>
      (match is_chunk_end st.prevT tt, is_chunk_end st.prevP pt with
       | some true_end, some pred_end =>
         if pred_end && true_end then
           ccStart (st.cc ++ [mk]) none ccnt tcnt pcnt st tt pt true_type pred_type
         else if (pred_end != true_end) || decide (true_type ≠ pred_type) then
           ccStart st.cc none ccnt tcnt pcnt st tt pt true_type pred_type
         else
           ccStart st.cc (some mk) ccnt tcnt pcnt st tt pt true_type pred_type
       | _, _ => none)
    | none => ccStart st.cc none ccnt tcnt pcnt st tt pt true_type pred_type
  | _, _ => none

/-- The `_count_chunks` loop over the zipped tag pairs. -/
def ccLoop : CCState → List (List Char × List Char) → Option CCState
  | st, [] => some st
  | st, (tt, pt) :: rest =>
    match ccStep st tt pt with
    | some st1 => ccLoop st1 rest
    | none => none

/-- The initial `_count_chunks` state: empty counters, both previous tags
`'O'`, no open marker. -/
def ccInit : CCState := ⟨[], [], [], [], [], [], oTag, oTag, none⟩

/-- The six counters returned by `_count_chunks`. -/
structure Counts where
  cc : List (List Char)
  tc : List (Option (List Char))
  pc : List (Option (List Char))
  ccnt : List (List Char)
  tcnt : List (List Char)
  pcnt : List (List Char)

/-- The epilogue of `_count_chunks` (lines 155-156): credit a still-open
correct-chunk marker after the final position. -/
def ccFinal (st : CCState) : Counts :=
  match st.marker with
  | some mk => ⟨st.cc ++ [mk], st.tc, st.pc, st.ccnt, st.tcnt, st.pcnt⟩
  | none => ⟨st.cc, st.tc, st.pc, st.ccnt, st.tcnt, st.pcnt⟩

/-- `_count_chunks(true_seqs, pred_seqs)`. -/
def count_chunks (true_seqs pred_seqs : List (List Char)) : Option Counts :=
  match ccLoop ccInit (true_seqs.zip pred_seqs) with
  | some st => some (ccFinal st)
  | none => none

/-- `_calc_metrics(tp, p, t)`: precision, recall and FB1 with explicit
zero-denominator guards. -/
def calc_metrics (tp p t : ℕ) : ℚ × ℚ × ℚ :=
  let precision : ℚ := if p ≠ 0 then (tp : ℚ) / (p : ℚ) else 0
  let recl : ℚ := if t ≠ 0 then (tp : ℚ) / (t : ℚ) else 0
  let fb1 : ℚ :=
    if precision + recl ≠ 0 then 2 * precision * recl / (precision + recl) else 0
  (precision, recl, fb1)

/-- `_get_result(correct_chunks, true_chunks, pred_chunks, correct_counts,
true_counts)`: the `(acc, acc_non0, f1)` triple. The overall accuracy divides
by the total tag count with no guard, so the empty case is a raised
`ZeroDivisionError`, modelled as `none`. -/
def get_result (correct_chunks : List (List Char))
    (true_chunks pred_chunks : List (Option (List Char)))
    (correct_counts true_counts : List (List Char)) : Option (ℚ × ℚ × ℚ) :=
  let sum_correct_chunks := correct_chunks.length
  let sum_true_chunks := true_chunks.length
  let sum_pred_chunks := pred_chunks.length
  let sum_correct_counts := correct_counts.length
  let sum_true_counts := true_counts.length
  let nonO_correct_counts := (correct_counts.filter (fun k => decide (k ≠ oTag))).length
  let nonO_true_counts := (true_counts.filter (fun k => decide (k ≠ oTag))).length
  let f1 := (calc_metrics sum_correct_chunks sum_pred_chunks sum_true_chunks).2.2
  if sum_true_counts = 0 then none
  else
    let acc : ℚ := (sum_correct_counts : ℚ) / (sum_true_counts : ℚ)
    let acc_non0 : ℚ :=
      if nonO_true_counts ≠ 0 then (nonO_correct_counts : ℚ) / (nonO_true_counts : ℚ) else 0
    some (acc, acc_non0, f1)

/-- `conlleval_f1(items)`. -/
def conlleval_f1 (items : List (List Char) × List (List Char)) : Option ℚ :=
  match count_chunks items.1 items.2 with
  | some r =>
    match get_result r.cc r.tc r.pc r.ccnt r.tcnt with
    | some res => some res.2.2
    | none => none
  | none => none

/-- `conlleval_acc(items)`. -/
def conlleval_acc (items : List (List Char) × List (List Char)) : Option ℚ :=
  match count_chunks items.1 items.2 with
  | some r =>
    match get_result r.cc r.tc r.pc r.ccnt r.tcnt with
    | some res => some res.1
    | none => none
  | none => none

/-- `conlleval_acc_non0(items)`. -/
def conlleval_acc_non0 (items : List (List Char) × List (List Char)) : Option ℚ :=
  match count_chunks items.1 items.2 with
  | some r =>
    match get_result r.cc r.tc r.pc r.ccnt r.tcnt with
    | some res => some res.2.1
    | none => none
  | none => none

/-- Swap the gold and predicted roles in a `_count_chunks` loop state. -/
def swapState (st : CCState) : CCState :=
  ⟨st.cc, st.pc, st.tc, st.ccnt, st.pcnt, st.tcnt, st.prevP, st.prevT, st.marker⟩

/-- Swap the gold and predicted roles in the six counters. -/
def swapCounts (r : Counts) : Counts :=
  ⟨r.cc, r.pc, r.tc, r.ccnt, r.pcnt, r.tcnt⟩

/-- The gold-stream chunk-start trace: the `true_type` keys that the
single-pass detection appends to `true_chunks`, given the previous tag. -/
def startsO : List Char → List (List Char) → List (Option (List Char))
  | _, [] => []
  | prev, t :: ts => (if chunkStartSpec prev t then [tagTy t] else []) ++ startsO t ts

/-- Modelled from the spec: the independent reference parser that extracts the
maximal labeled spans of a gold tag sequence. It traverses the sequence and
emits the type of each maximal span at the boundary where the span closes —
a position where the spec's chunk-end condition holds against the previous
tag, or the end of the sequence while a span is still open. -/
def refSpans : List Char → List (List Char) → List (List Char)
  | prev, [] => if prev = oTag then [] else [tagTyD prev]
  | prev, t :: ts => (if chunkEndSpec prev t then [tagTyD prev] else []) ++ refSpans t ts


/-- A Python list comprehension `[f(x) for x in xs]` whose body may raise:
elements are evaluated left to right and the first exception aborts the whole
comprehension. -/
def mapME {α β ε : Type} (f : α → Except ε β) : List α → Except ε (List β)
  | [] => Except.ok []
  | a :: as =>
    match f a with
    | Except.error e => Except.error e
    | Except.ok b =>
      match mapME f as with
      | Except.error e => Except.error e
      | Except.ok bs => Except.ok (b :: bs)

/-- `LowercaseFilter.apply(resps, docs)`: lower-case every string of every
instance; `docs` is accepted and ignored. -/
def lowercase_apply {δ : Type} (resps : List (List (List Char))) (_docs : List δ) :
    List (List (List Char)) :=
  resps.map fun inst => inst.map fun resp => resp.map Char.toLower

/-- `UppercaseFilter.apply(resps, docs)`: upper-case every string of every
instance; `docs` is accepted and ignored. -/
def uppercase_apply {δ : Type} (resps : List (List (List Char))) (_docs : List δ) :
    List (List (List Char)) :=
  resps.map fun inst => inst.map fun resp => resp.map Char.toUpper

/-- The dynamically typed `mapping_dict` argument of `MapFilter.__init__`:
Python's `None` (the default), an actual dict, or any other value. -/
inductive MapArg (K V : Type) where
  | absent : MapArg K V
  | dict : List (K × V) → MapArg K V
  | other : MapArg K V

/-- `MapFilter.__init__(mapping_dict, default_value)`: `None` becomes the
empty dict, a dict is stored, and anything else fails the
`isinstance(mapping_dict, dict)` assertion (modelled as `none`). -/
def map_filter_init {K V W : Type} (arg : MapArg K V) (default_value : W) :
    Option (List (K × V) × W) :=
  match arg with
  | MapArg.absent => some ([], default_value)
  | MapArg.dict d => some (d, default_value)
  | MapArg.other => none

/-- `MapFilter.apply(resps, docs)`: replace each response by
`mapping_dict.get(resp, default_value)`; `docs` is accepted and ignored. -/
def map_apply {δ K V : Type} [DecidableEq K] (mapping : List (K × V)) (default_value : V)
    (resps : List (List K)) (_docs : List δ) : List (List V) :=
  resps.map fun inst =>
    inst.map fun resp => ((mapping.find? (fun kv => decide (kv.1 = resp))).map Prod.snd).getD default_value

/-- The 13-name allow-list of `CastToDtypeFilter.__init__`. -/
def castDtypeNames : List String :=
  ["int", "float", "str", "bool", "complex", "bytes", "bytearray",
   "memoryview", "list", "tuple", "set", "frozenset", "dict"]

/-- `CastToDtypeFilter.__init__(dtype)`: the `assert dtype in {...}` check;
a name outside the allow-list fails the assertion (modelled as `none`). The
stored state is the validated name (the builtin callable it is resolved to
is external to this code). -/
def cast_to_dtype_init (dtype : String) : Option String :=
  if dtype ∈ castDtypeNames then some dtype else none

/-- `CastToDtypeFilter.apply(resps, docs)` with the per-item builtin
conversion `cast` (external, may raise); `docs` is accepted and ignored. -/
def cast_apply {δ κ β ε : Type} (cast : κ → Except ε β) (resps : List (List κ))
    (_docs : List δ) : Except ε (List (List β)) :=
  mapME (fun inst => mapME cast inst) resps

/-- The string `"```"` of a fence. -/
def fenceChars : List Char := "```".toList

/-- The string `"json"` of the optional language tag. -/
def jsonChars : List Char := "json".toList

/-- Does a triple-backtick fence occur at index `i` of `s`? -/
def fenceAt (s : List Char) (i : ℕ) : Bool := decide ((s.drop i).take 3 = fenceChars)

/-- All indices of `s` where a fence occurs, in increasing order. -/
def fencePositions (s : List Char) : List ℕ :=
  (List.range s.length).filter (fun i => fenceAt s i)

/-- The start index of the leftmost match of `JSON_MARKDOWN_PATTERN`
(`re.search` scans start positions left to right; a match can start only at
a fence that is followed by a further fence at distance at least 3). -/
def searchStart (s : List Char) : Option ℕ :=
  (fencePositions s).find? (fun i => (fencePositions s).any (fun j => decide (i + 3 ≤ j)))

/-- Does the greedy `(json)?` group match at a fence starting at `i`?
It does iff the four characters `json` follow the fence and the rest of the
pattern can still complete (a fence at or after `i + 7`). -/
def jsonTagAt (s : List Char) (i : ℕ) : Bool :=
  decide ((s.drop (i + 3)).take 4 = jsonChars) &&
    (fencePositions s).any (fun j => decide (i + 7 ≤ j))

/-- The index where group 2 (the `(.*)` content) of a match starting at `i`
begins: after the fence and, when the `(json)?` group matches, after `json`. -/
def jmContentStart (s : List Char) (i : ℕ) : ℕ :=
  if jsonTagAt s i then i + 7 else i + 3

/-- `JSON_MARKDOWN_PATTERN.search(s)` followed by `.group(2)`: the DOTALL
greedy `(.*)` runs from the content start to the last fence of the string,
so group 2 is the slice from the content start up to that last fence. -/
def group2 (s : List Char) : Option (List Char) :=
  match searchStart s with
  | none => none
  | some i =>
    match ((fencePositions s).filter (fun j => decide (jmContentStart s i ≤ j))).getLast? with
    | none => none
    | some k => some ((s.drop (jmContentStart s i)).take (k - jmContentStart s i))

/-- The whitespace characters stripped by Python `str.strip()` (ASCII). -/
def pySpace : List Char := [' ', '\t', '\n', '\r', '\x0b', '\x0c']

/-- Python `s.strip()`: drop whitespace from both ends. -/
def pyStrip (l : List Char) : List Char :=
  ((l.dropWhile (fun c => pySpace.contains c)).reverse.dropWhile
      (fun c => pySpace.contains c)).reverse

/-- `ParseJsonMarkdownFilter._parse_json_markdown(json_string)`, with the
external `json.loads` passed in as `loads`: try the direct parse; on a parse
error extract the fenced block, strip it and parse that; re-raise the
original error when no fenced block matches. -/
def parse_json_markdown {ε υ : Type} (loads : List Char → Except ε υ)
    (json_string : List Char) : Except ε υ :=
  match loads json_string with
  | Except.ok v => Except.ok v
  | Except.error e =>
    match group2 json_string with
    | none => Except.error e
    | some content => loads (pyStrip content)

/-- `ParseJsonMarkdownFilter.apply(resps, docs)`; `docs` is accepted and
ignored. -/
def parse_json_apply {δ ε υ : Type} (loads : List Char → Except ε υ)
    (resps : List (List (List Char))) (_docs : List δ) : Except ε (List (List υ)) :=
  mapME (fun inst => mapME (parse_json_markdown loads) inst) resps

/-- The shape of a response batch: the list of its instance lengths. -/
def batchShape {α : Type} (resps : List (List α)) : List ℕ := resps.map List.length

/-- The number of occurrences of a key in an increment-key list: the value a
counter dict stores at that key. -/
def countKey {α : Type} [DecidableEq α] (x : α) : List α → ℕ
  | [] => 0
  | a :: as => (if a = x then 1 else 0) + countKey x as

/-- A concrete `json.loads` stand-in for witnesses: succeeds only on `"1"`. -/
def loadsOne : List Char → Except ℕ ℕ :=
  fun l => if l = ['1'] then Except.ok 1 else Except.error 5

/-- A concrete always-failing `json.loads` stand-in for witnesses. -/
def loadsFail : List Char → Except ℕ ℕ := fun _ => Except.error 7

/-- The witness string with one fenced block around `1`. -/
def sFence1 : List Char := "```1```".toList

/-- The witness string with two fenced blocks. -/
def sFences : List Char := "```a``` ```b```".toList

lemma splitFirstDash_append {t p r : List Char} (h : splitFirstDash t = some (p, r)) :
    t = p ++ '-' :: r := by
  induction t generalizing p r with
  | nil => simp [splitFirstDash] at h
  | cons c cs ih =>
    by_cases hc : c = '-'
    · subst hc
      simp [splitFirstDash] at h
      obtain ⟨rfl, rfl⟩ := h
      simp
    · simp only [splitFirstDash, if_neg hc] at h
      cases hsub : splitFirstDash cs with
      | none => rw [hsub] at h; simp at h
      | some pr =>
        obtain ⟨p0, r0⟩ := pr
        rw [hsub] at h
        simp at h
        obtain ⟨rfl, rfl⟩ := h
        simp [ih hsub]

lemma bies_ne {a : Char} (ha : a ∈ bies) : a ≠ 'O' ∧ a ≠ '-' := by
  simp [bies] at ha
  rcases ha with rfl | rfl | rfl | rfl <;> exact ⟨by decide, by decide⟩

lemma cons_dash_ne_oTag (a : Char) (ty : List Char) : a :: '-' :: ty ≠ oTag := by
  simp [oTag]

lemma splitFirstDash_cons {a : Char} (ha : a ≠ '-') (ty : List Char) :
    splitFirstDash (a :: '-' :: ty) = some ([a], ty) := by
  simp [splitFirstDash, ha]

lemma split_tag_O : split_tag oTag = some (oTag, none) := rfl

lemma split_tag_cons {a : Char} (ha : a ∈ bies) (ty : List Char) :
    split_tag (a :: '-' :: ty) = some ([a], some ty) := by
  simp [split_tag, cons_dash_ne_oTag, splitFirstDash_cons (bies_ne ha).2]

lemma tagTy_O : tagTy oTag = none := rfl

lemma tagTy_cons {a : Char} (ha : a ∈ bies) (ty : List Char) :
    tagTy (a :: '-' :: ty) = some ty := by
  simp [tagTy, split_tag_cons ha]

lemma tagHead_cons {a : Char} (ha : a ∈ bies) (ty : List Char) :
    tagHead (a :: '-' :: ty) = [a] := by
  simp [tagHead, split_tag_cons ha]

lemma tagTyD_cons {a : Char} (ha : a ∈ bies) (ty : List Char) :
    tagTyD (a :: '-' :: ty) = ty := by
  simp [tagTyD, tagTy_cons ha]

lemma validTag_cases {t : List Char} (h : ValidTag t) :
    t = oTag ∨ ∃ a ty, a ∈ bies ∧ t = a :: '-' :: ty := by
  unfold ValidTag validTagB at h
  by_cases ht : t = oTag
  · exact Or.inl ht
  · right
    simp [ht] at h
    cases hsub : splitFirstDash t with
    | none => rw [hsub] at h; simp at h
    | some pr =>
      obtain ⟨p, r⟩ := pr
      rw [hsub] at h
      simp at h
      have happ := splitFirstDash_append hsub
      rcases h with rfl | rfl | rfl | rfl
      · exact ⟨'B', r, by simp [bies], by simpa using happ⟩
      · exact ⟨'I', r, by simp [bies], by simpa using happ⟩
      · exact ⟨'E', r, by simp [bies], by simpa using happ⟩
      · exact ⟨'S', r, by simp [bies], by simpa using happ⟩

lemma head_ne_oTag {a : Char} (h : a ≠ 'O') : ([a] : List Char) ≠ oTag := by
  simp [oTag, h]

lemma is_chunk_end_spec {p c : List Char} (hp : ValidTag p) (hc : ValidTag c) :
    is_chunk_end p c = some (chunkEndSpec p c) := by
  rcases validTag_cases hp with rfl | ⟨a, ty1, ha, rfl⟩
  · rcases validTag_cases hc with rfl | ⟨b, ty2, hb, rfl⟩
    · rfl
    · simp [is_chunk_end, chunkEndSpec, split_tag_O, split_tag_cons hb]
  · rcases validTag_cases hc with rfl | ⟨b, ty2, hb, rfl⟩
    · simp [is_chunk_end, chunkEndSpec, split_tag_O, split_tag_cons ha,
        cons_dash_ne_oTag, head_ne_oTag (bies_ne ha).1]
    · have ha' := head_ne_oTag (bies_ne ha).1
      have hb' := head_ne_oTag (bies_ne hb).1
      by_cases hty : ty1 = ty2 <;>
        simp [is_chunk_end, chunkEndSpec, split_tag_cons ha, split_tag_cons hb,
          cons_dash_ne_oTag, tagTy_cons ha, tagTy_cons hb, tagHead_cons ha,
          tagHead_cons hb, ha', hb', hty]

lemma is_chunk_start_spec {p c : List Char} (hp : ValidTag p) (hc : ValidTag c) :
    is_chunk_start p c = some (chunkStartSpec p c) := by
  rcases validTag_cases hp with rfl | ⟨a, ty1, ha, rfl⟩
  · rcases validTag_cases hc with rfl | ⟨b, ty2, hb, rfl⟩
    · rfl
    · simp [is_chunk_start, chunkStartSpec, split_tag_O, split_tag_cons hb,
        cons_dash_ne_oTag, head_ne_oTag (bies_ne hb).1]
  · rcases validTag_cases hc with rfl | ⟨b, ty2, hb, rfl⟩
    · simp [is_chunk_start, chunkStartSpec, split_tag_O, split_tag_cons ha,
        cons_dash_ne_oTag, head_ne_oTag (bies_ne ha).1]
    · have ha' := head_ne_oTag (bies_ne ha).1
      have hb' := head_ne_oTag (bies_ne hb).1
      by_cases hty : ty1 = ty2 <;>
        simp [is_chunk_start, chunkStartSpec, split_tag_cons ha, split_tag_cons hb,
          cons_dash_ne_oTag, tagTy_cons ha, tagTy_cons hb, tagHead_cons ha,
          tagHead_cons hb, ha', hb', hty]

/-- C1: on every pair of well-formed tags, `_is_chunk_end` returns exactly the
spec's chunk-end decision chain (false if `prev` is `O`; else true if `cur` is
`O`; else true if the types differ; else true iff `cur`'s prefix is in `{B,S}`
or `prev`'s prefix is in `{E,S}`), and `_is_chunk_start` returns exactly the
symmetric mirror chain. -/
theorem chunk_tests_match_spec (prev cur : List Char)
    (hp : ValidTag prev) (hc : ValidTag cur) :
    is_chunk_end prev cur = some (chunkEndSpec prev cur) ∧
      is_chunk_start prev cur = some (chunkStartSpec prev cur) :=
  ⟨is_chunk_end_spec hp hc, is_chunk_start_spec hp hc⟩

/-- Witness for C1 at the concrete pair `(B-PER, I-LOC)`. -/
theorem chunk_tests_match_spec_witness :
    is_chunk_end ['B', '-', 'P', 'E', 'R'] ['I', '-', 'L', 'O', 'C'] =
        some (chunkEndSpec ['B', '-', 'P', 'E', 'R'] ['I', '-', 'L', 'O', 'C']) ∧
      is_chunk_start ['B', '-', 'P', 'E', 'R'] ['I', '-', 'L', 'O', 'C'] =
        some (chunkStartSpec ['B', '-', 'P', 'E', 'R'] ['I', '-', 'L', 'O', 'C']) :=
  chunk_tests_match_spec _ _ (by decide) (by decide)

lemma validTag_split {t : List Char} (h : ValidTag t) :
    split_tag t = some (tagHead t, tagTy t) := by
  rcases validTag_cases h with rfl | ⟨a, ty, ha, rfl⟩
  · rfl
  · rw [split_tag_cons ha, tagHead_cons ha, tagTy_cons ha]

lemma validTag_O : ValidTag oTag := by decide

lemma ccStart_valid {st : CCState} {tt pt : List Char}
    (cc : List (List Char)) (marker0 : Option (List Char))
    (ccnt tcnt pcnt : List (List Char)) (true_type pred_type : Option (List Char))
    (hprevT : ValidTag st.prevT) (hprevP : ValidTag st.prevP)
    (htt : ValidTag tt) (hpt : ValidTag pt) :
    ccStart cc marker0 ccnt tcnt pcnt st tt pt true_type pred_type =
      some ⟨cc,
        (if chunkStartSpec st.prevT tt then st.tc ++ [true_type] else st.tc),
        (if chunkStartSpec st.prevP pt then st.pc ++ [pred_type] else st.pc),
        ccnt, tcnt, pcnt, tt, pt,
        (if chunkStartSpec st.prevT tt && chunkStartSpec st.prevP pt &&
            decide (true_type = pred_type) then true_type else marker0)⟩ := by
  unfold ccStart
  rw [is_chunk_start_spec hprevT htt, is_chunk_start_spec hprevP hpt]

lemma ccStep_valid {st : CCState} {tt pt : List Char}
    (hprevT : ValidTag st.prevT) (hprevP : ValidTag st.prevP)
    (htt : ValidTag tt) (hpt : ValidTag pt) :
    ∃ st', ccStep st tt pt = some st' ∧
      st'.tc = st.tc ++ (if chunkStartSpec st.prevT tt then [tagTy tt] else []) ∧
      st'.tcnt = st.tcnt ++ [tt] ∧
      st'.pcnt = st.pcnt ++ [pt] ∧
      st'.ccnt = (if tt = pt then st.ccnt ++ [tt] else st.ccnt) ∧
      st'.prevT = tt ∧ st'.prevP = pt := by
  cases hm : st.marker with
  | none =>
    simp only [ccStep, validTag_split htt, validTag_split hpt, hm,
      ccStart_valid _ _ _ _ _ _ _ hprevT hprevP htt hpt]
    refine ⟨_, rfl, ?_, rfl, rfl, rfl, rfl, rfl⟩
    by_cases hs : chunkStartSpec st.prevT tt <;> simp [hs]
  | some mk =>
    simp only [ccStep, validTag_split htt, validTag_split hpt, hm,
      is_chunk_end_spec hprevT htt, is_chunk_end_spec hprevP hpt]
    split_ifs <;>
      · simp only [ccStart_valid _ _ _ _ _ _ _ hprevT hprevP htt hpt]
        refine ⟨_, rfl, ?_, rfl, rfl, rfl, rfl, rfl⟩
        simp_all

lemma ccLoop_run (l : List (List Char × List Char)) :
    ∀ st : CCState, (∀ pr ∈ l, ValidTag pr.1 ∧ ValidTag pr.2) →
      ValidTag st.prevT → ValidTag st.prevP →
      ∃ st', ccLoop st l = some st' ∧
        st'.tc = st.tc ++ startsO st.prevT (l.map Prod.fst) ∧
        st'.tcnt = st.tcnt ++ l.map Prod.fst ∧
        st'.pcnt = st.pcnt ++ l.map Prod.snd ∧
        (∀ x ∈ st'.ccnt, x ∈ st.ccnt ∨ x ∈ l.map Prod.fst) := by
  induction l with
  | nil =>
    intro st _ _ _
    exact ⟨st, rfl, by simp [startsO], by simp, by simp, fun x hx => Or.inl hx⟩
  | cons hd rest ih =>
    obtain ⟨tt, pt⟩ := hd
    intro st hval hprevT hprevP
    obtain ⟨httpt, hrest⟩ := List.forall_mem_cons.mp hval
    obtain ⟨st1, hstep, htc1, htcnt1, hpcnt1, hccnt1, hpT1, hpP1⟩ :=
      ccStep_valid hprevT hprevP httpt.1 httpt.2
    obtain ⟨st', hloop, htc', htcnt', hpcnt', hccnt'⟩ :=
      ih st1 hrest (hpT1 ▸ httpt.1) (hpP1 ▸ httpt.2)
    refine ⟨st', ?_, ?_, ?_, ?_, ?_⟩
    · simp only [ccLoop, hstep, hloop]
    · rw [htc', htc1, hpT1, List.map_cons, startsO, List.append_assoc]
    · rw [htcnt', htcnt1, List.map_cons, List.append_assoc]; rfl
    · rw [hpcnt', hpcnt1, List.map_cons, List.append_assoc]; rfl
    · intro x hx
      rcases hccnt' x hx with hx1 | hx1
      · rw [hccnt1] at hx1
        by_cases he : tt = pt
        · rw [if_pos he] at hx1
          rcases List.mem_append.mp hx1 with h | h
          · exact Or.inl h
          · simp at h; subst h; simp
        · rw [if_neg he] at hx1; exact Or.inl hx1
      · right; simp [hx1]

lemma chunkEndSpec_O_left (t : List Char) : chunkEndSpec oTag t = false := by
  simp [chunkEndSpec]

lemma chunkStartSpec_O_right (p : List Char) : chunkStartSpec p oTag = false := by
  simp [chunkStartSpec]

lemma chunkStartSpec_O_left {t : List Char} (h : t ≠ oTag) :
    chunkStartSpec oTag t = true := by
  simp [chunkStartSpec, h]

lemma chunkEndSpec_O_right {p : List Char} (h : p ≠ oTag) :
    chunkEndSpec p oTag = true := by
  simp [chunkEndSpec, h]

lemma chunkEndSpec_eq_startSpec {p t : List Char} (hp : p ≠ oTag) (ht : t ≠ oTag) :
    chunkEndSpec p t = chunkStartSpec p t := by
  simp [chunkEndSpec, chunkStartSpec, hp, ht]

lemma tagTy_eq_of_endSpec_false {p t : List Char} (hp : p ≠ oTag) (ht : t ≠ oTag)
    (h : chunkEndSpec p t = false) : tagTy p = tagTy t := by
  simp [chunkEndSpec, hp, ht] at h
  exact h.1

lemma countKey_append {α : Type} [DecidableEq α] (x : α) (l1 l2 : List α) :
    countKey x (l1 ++ l2) = countKey x l1 + countKey x l2 := by
  induction l1 with
  | nil => simp [countKey]
  | cons a as ih => simp [countKey, ih]; omega

lemma countKey_single {α : Type} [DecidableEq α] (x y : α) :
    countKey y [x] = if x = y then 1 else 0 := by
  simp [countKey]

lemma starts_vs_ref (ts : List (List Char)) :
    ∀ prev : List Char, ValidTag prev → (∀ t ∈ ts, ValidTag t) → ∀ T : List Char,
      countKey T (refSpans prev ts) =
        countKey (some T) (startsO prev ts) +
          (if prev ≠ oTag ∧ tagTy prev = some T then 1 else 0) := by
  induction ts with
  | nil =>
    intro prev hprev _ T
    by_cases hp : prev = oTag
    · simp [refSpans, startsO, hp, countKey]
    · rcases validTag_cases hprev with rfl | ⟨a, ty, ha, rfl⟩
      · exact absurd rfl hp
      · simp only [refSpans, startsO, cons_dash_ne_oTag, if_neg,
          tagTyD_cons ha, tagTy_cons ha, countKey_single, countKey]
        by_cases hT : ty = T <;> simp [hT, cons_dash_ne_oTag]
  | cons t ts ih =>
    intro prev hprev hval T
    obtain ⟨hT, hrest⟩ := List.forall_mem_cons.mp hval
    have ihv := ih t hT hrest T
    rw [refSpans, startsO, countKey_append, countKey_append, ihv]
    by_cases hp : prev = oTag
    · subst hp
      by_cases ht : t = oTag
      · subst ht
        simp [chunkEndSpec_O_left, chunkStartSpec_O_right, countKey]
      · simp only [chunkEndSpec_O_left, chunkStartSpec_O_left ht,
          if_true, if_false, Bool.false_eq_true, countKey_single, countKey]
        by_cases hTy : tagTy t = some T <;> simp [hTy, ht] <;> omega
    · by_cases ht : t = oTag
      · subst ht
        rcases validTag_cases hprev with rfl | ⟨a, ty, ha, rfl⟩
        · exact absurd rfl hp
        · simp only [chunkEndSpec_O_right hp, chunkStartSpec_O_right,
            if_true, Bool.false_eq_true, if_false,
            tagTyD_cons ha, tagTy_cons ha, countKey_single, countKey]
          by_cases hTy : ty = T <;> simp [hTy, cons_dash_ne_oTag] <;> omega
      · rcases validTag_cases hprev with rfl | ⟨a, ty1, ha, rfl⟩
        · exact absurd rfl hp
        rcases validTag_cases hT with rfl | ⟨b, ty2, hb, rfl⟩
        · exact absurd rfl ht
        by_cases hend : chunkEndSpec (a :: '-' :: ty1) (b :: '-' :: ty2) = true
        · have hstart := (chunkEndSpec_eq_startSpec hp ht).symm.trans hend
          simp only [hend, hstart, if_true, tagTyD_cons ha, tagTy_cons ha,
            tagTy_cons hb, countKey_single, countKey]
          by_cases h1 : ty1 = T <;> by_cases h2 : ty2 = T <;>
            simp [h1, h2, cons_dash_ne_oTag] <;> omega
        · have hendf : chunkEndSpec (a :: '-' :: ty1) (b :: '-' :: ty2) = false :=
            by simpa using hend
          have hstartf : chunkStartSpec (a :: '-' :: ty1) (b :: '-' :: ty2) = false :=
            (chunkEndSpec_eq_startSpec hp ht).symm.trans hendf
          have hty := tagTy_eq_of_endSpec_false hp ht hendf
          rw [tagTy_cons ha, tagTy_cons hb] at hty
          obtain rfl : ty1 = ty2 := by simpa using hty
          simp only [hendf, Bool.false_eq_true, if_false, hstartf,
            tagTy_cons ha, tagTy_cons hb, countKey_single, countKey]
          by_cases h1 : ty1 = T <;> simp [h1, cons_dash_ne_oTag] <;> omega

lemma ccFinal_tc (st : CCState) : (ccFinal st).tc = st.tc := by
  unfold ccFinal
  cases st.marker <;> rfl

lemma ccFinal_tcnt (st : CCState) : (ccFinal st).tcnt = st.tcnt := by
  unfold ccFinal
  cases st.marker <;> rfl

lemma ccFinal_ccnt (st : CCState) : (ccFinal st).ccnt = st.ccnt := by
  unfold ccFinal
  cases st.marker <;> rfl

lemma zip_valid {gs ps : List (List Char)}
    (hg : ∀ t ∈ gs, ValidTag t) (hp : ∀ t ∈ ps, ValidTag t) :
    ∀ pr ∈ gs.zip ps, ValidTag pr.1 ∧ ValidTag pr.2 := by
  intro pr hpr
  obtain ⟨h1, h2⟩ := List.mem_zip hpr
  exact ⟨hg _ h1, hp _ h2⟩

/-- C2: on every pair of equal-length sequences of well-formed tags,
`_count_chunks` succeeds and its per-type `true_chunks` counts — produced by
the single-pass chunk-start detection — agree with the per-type counts of the
maximal labeled spans that the independent reference parser extracts from the
gold sequence. -/
theorem true_chunk_counts_match_ref (gs ps : List (List Char))
    (hlen : gs.length = ps.length)
    (hg : ∀ t ∈ gs, ValidTag t) (hp : ∀ t ∈ ps, ValidTag t) :
    ∃ r, count_chunks gs ps = some r ∧
      ∀ T : List Char, countKey (some T) r.tc = countKey T (refSpans oTag gs) := by
  obtain ⟨st', hloop, htc, -, -, -⟩ :=
    ccLoop_run (gs.zip ps) ccInit (zip_valid hg hp) validTag_O validTag_O
  have hfst : (gs.zip ps).map Prod.fst = gs :=
    List.map_fst_zip gs ps (le_of_eq hlen)
  refine ⟨ccFinal st', ?_, ?_⟩
  · unfold count_chunks
    rw [hloop]
  · intro T
    rw [ccFinal_tc, htc, hfst]
    have := starts_vs_ref gs oTag validTag_O hg T
    simp at this
    simp [ccInit, this]

/-- Witness for C2 on the pair `(["B-P", "I-P"], ["B-P", "O"])`. -/
theorem true_chunk_counts_match_ref_witness :
    ∃ r, count_chunks [['B', '-', 'P'], ['I', '-', 'P']] [['B', '-', 'P'], ['O']] = some r ∧
      ∀ T : List Char, countKey (some T) r.tc =
        countKey T (refSpans oTag [['B', '-', 'P'], ['I', '-', 'P']]) :=
  true_chunk_counts_match_ref _ _ (by decide) (by decide) (by decide)

@[simp] lemma swapState_cc (st : CCState) : (swapState st).cc = st.cc := rfl

@[simp] lemma swapState_tc (st : CCState) : (swapState st).tc = st.pc := rfl

@[simp] lemma swapState_pc (st : CCState) : (swapState st).pc = st.tc := rfl

@[simp] lemma swapState_ccnt (st : CCState) : (swapState st).ccnt = st.ccnt := rfl

@[simp] lemma swapState_tcnt (st : CCState) : (swapState st).tcnt = st.pcnt := rfl

@[simp] lemma swapState_pcnt (st : CCState) : (swapState st).pcnt = st.tcnt := rfl

@[simp] lemma swapState_prevT (st : CCState) : (swapState st).prevT = st.prevP := rfl

@[simp] lemma swapState_prevP (st : CCState) : (swapState st).prevP = st.prevT := rfl

@[simp] lemma swapState_marker (st : CCState) : (swapState st).marker = st.marker := rfl

lemma ccStart_swap (cc : List (List Char)) (m0 : Option (List Char))
    (ccnt tcnt pcnt : List (List Char)) (st : CCState) (tt pt : List Char)
    (tyT tyP : Option (List Char)) :
    ccStart cc m0 ccnt pcnt tcnt (swapState st) pt tt tyP tyT =
      (ccStart cc m0 ccnt tcnt pcnt st tt pt tyT tyP).map swapState := by
  unfold ccStart
  simp only [swapState_prevT, swapState_prevP]
  cases e1 : is_chunk_start st.prevT tt <;> cases e2 : is_chunk_start st.prevP pt <;>
    simp only [Option.map_none, Option.map_some]
  case none.none => rfl
  case none.some => rfl
  case some.none => rfl
  case some.some b1 b2 =>
    simp only [swapState_tc, swapState_pc, Option.map_some]
    cases b1 <;> cases b2 <;> by_cases hty : tyT = tyP <;>
      simp [swapState, hty, eq_comm]

lemma ccStep_swap (st : CCState) (tt pt : List Char) :
    ccStep (swapState st) pt tt = (ccStep st tt pt).map swapState := by
  unfold ccStep
  cases e1 : split_tag tt <;> cases e2 : split_tag pt <;>
    simp only [e1, e2, swapState_marker, swapState_cc, swapState_ccnt,
      swapState_tcnt, swapState_pcnt, swapState_prevT, swapState_prevP]
  case none.none => rfl
  case none.some v => cases v; rfl
  case some.none v => cases v; rfl
  case some.some v1 v2 =>
    obtain ⟨p1, tyT⟩ := v1
    obtain ⟨p2, tyP⟩ := v2
    have hccnt : (if pt = tt then st.ccnt ++ [pt] else st.ccnt) =
        (if tt = pt then st.ccnt ++ [tt] else st.ccnt) := by
      by_cases heq : tt = pt
      · subst heq; rfl
      · rw [if_neg heq, if_neg (fun h => heq h.symm)]
    cases hm : st.marker with
    | none =>
      rw [hccnt]
      exact ccStart_swap _ _ _ _ _ st tt pt tyT tyP
    | some mk =>
      simp only [swapState_prevT, swapState_prevP]
      cases f1 : is_chunk_end st.prevT tt <;> cases f2 : is_chunk_end st.prevP pt <;>
        simp only [Option.map_none, Option.map_some]
      case none.none => rfl
      case none.some => rfl
      case some.none => rfl
      case some.some bT bP =>
        rw [hccnt]
        have hd : (decide (tyP = tyT)) = (decide (tyT = tyP)) := by
          by_cases h : tyT = tyP <;> simp [h, eq_comm]
        cases bT <;> cases bP <;>
          · try simp only [hd]
            try simp
            first
              | exact ccStart_swap _ _ _ _ _ st tt pt tyT tyP
              | (split_ifs <;>
                  first
                    | exact ccStart_swap _ _ _ _ _ st tt pt tyT tyP
                    | simp_all)

lemma ccLoop_swap (l : List (List Char × List Char)) :
    ∀ st : CCState, ccLoop (swapState st) (l.map Prod.swap) = (ccLoop st l).map swapState := by
  induction l with
  | nil => intro st; rfl
  | cons hd rest ih =>
    obtain ⟨tt, pt⟩ := hd
    intro st
    simp only [List.map_cons, Prod.swap_prod_mk, ccLoop, ccStep_swap]
    cases h : ccStep st tt pt with
    | none => simp
    | some st1 => simp [ih st1]

lemma ccFinal_pcnt (st : CCState) : (ccFinal st).pcnt = st.pcnt := by
  unfold ccFinal
  cases st.marker <;> rfl

lemma ccFinal_swap (st : CCState) : ccFinal (swapState st) = swapCounts (ccFinal st) := by
  unfold ccFinal swapCounts
  cases hm : st.marker <;> simp [swapState, hm]

@[simp] lemma swapCounts_cc (r : Counts) : (swapCounts r).cc = r.cc := rfl

@[simp] lemma swapCounts_tc (r : Counts) : (swapCounts r).tc = r.pc := rfl

@[simp] lemma swapCounts_pc (r : Counts) : (swapCounts r).pc = r.tc := rfl

@[simp] lemma swapCounts_ccnt (r : Counts) : (swapCounts r).ccnt = r.ccnt := rfl

@[simp] lemma swapCounts_tcnt (r : Counts) : (swapCounts r).tcnt = r.pcnt := rfl

@[simp] lemma swapCounts_pcnt (r : Counts) : (swapCounts r).pcnt = r.tcnt := rfl

lemma ccStep_cnt {st st' : CCState} {tt pt : List Char} (h : ccStep st tt pt = some st') :
    st'.tcnt = st.tcnt ++ [tt] ∧ st'.pcnt = st.pcnt ++ [pt] := by
  unfold ccStep ccStart at h
  repeat' split at h
  all_goals simp_all
  all_goals (obtain rfl := h; exact ⟨rfl, rfl⟩)

lemma ccLoop_cnt_len (l : List (List Char × List Char)) :
    ∀ {st st' : CCState}, ccLoop st l = some st' →
      st'.tcnt.length = st.tcnt.length + l.length ∧
        st'.pcnt.length = st.pcnt.length + l.length := by
  induction l with
  | nil =>
    intro st st' h
    obtain rfl : st = st' := by simpa [ccLoop] using h
    simp
  | cons hd rest ih =>
    obtain ⟨tt, pt⟩ := hd
    intro st st' h
    rw [ccLoop] at h
    cases e : ccStep st tt pt with
    | none => rw [e] at h; simp at h
    | some st1 =>
      rw [e] at h
      obtain ⟨h1, h2⟩ := ccStep_cnt e
      obtain ⟨h3, h4⟩ := ih h
      constructor
      · rw [h3, h1]; simp; omega
      · rw [h4, h2]; simp; omega

lemma f1_swap (tp a b : ℕ) :
    (calc_metrics tp a b).2.2 = (calc_metrics tp b a).2.2 := by
  unfold calc_metrics
  by_cases ha : a = 0 <;> by_cases hb : b = 0 <;> simp [ha, hb]
  have hc : (tp : ℚ) / (b : ℚ) + (tp : ℚ) / (a : ℚ) =
      (tp : ℚ) / (a : ℚ) + (tp : ℚ) / (b : ℚ) := add_comm _ _
  rw [hc]
  split_ifs with h
  · rfl
  · ring

lemma get_result_swap_f1 (r : Counts) (hlen : r.tcnt.length = r.pcnt.length) :
    (get_result r.cc r.pc r.tc r.ccnt r.pcnt).map (fun res => res.2.2) =
      (get_result r.cc r.tc r.pc r.ccnt r.tcnt).map (fun res => res.2.2) := by
  unfold get_result
  by_cases hz : r.tcnt.length = 0
  · rw [if_pos hz, if_pos (hlen ▸ hz)]
  · rw [if_neg hz, if_neg (hlen ▸ hz)]
    simp only [Option.map_some']
    rw [f1_swap]

/-- C3: for every pair of equal-length tag sequences, swapping the gold and
predicted sequences leaves the F1 score returned by `conlleval_f1` unchanged,
including the zero-denominator cases in which precision or recall is defined
as 0. -/
theorem conlleval_f1_symm (gs ps : List (List Char)) (hlen : gs.length = ps.length) :
    conlleval_f1 (gs, ps) = conlleval_f1 (ps, gs) := by
  have hzip : ps.zip gs = (gs.zip ps).map Prod.swap := (List.zip_swap gs ps).symm
  have hloopswap := ccLoop_swap (gs.zip ps) ccInit
  have hinit : swapState ccInit = ccInit := rfl
  rw [hinit] at hloopswap
  simp only [conlleval_f1, count_chunks, hzip, hloopswap]
  cases hl : ccLoop ccInit (gs.zip ps) with
  | none => rfl
  | some st' =>
    simp only [Option.map_some']
    obtain ⟨h1, h2⟩ := ccLoop_cnt_len (gs.zip ps) hl
    have hlen2 : (ccFinal st').tcnt.length = (ccFinal st').pcnt.length := by
      rw [ccFinal_tcnt, ccFinal_pcnt]
      simp [ccInit] at h1 h2
      omega
    have hmap := get_result_swap_f1 (ccFinal st') hlen2
    rw [ccFinal_swap]
    simp only [swapCounts_cc, swapCounts_tc, swapCounts_pc, swapCounts_ccnt,
      swapCounts_tcnt]
    cases hga : get_result (ccFinal st').cc (ccFinal st').tc (ccFinal st').pc
        (ccFinal st').ccnt (ccFinal st').tcnt <;>
      cases hgb : get_result (ccFinal st').cc (ccFinal st').pc (ccFinal st').tc
          (ccFinal st').ccnt (ccFinal st').pcnt <;>
      rw [hga, hgb] at hmap <;> simp_all

/-- Witness for C3 on the concrete pair `(["B-P", "O"], ["O", "O"])`. -/
theorem conlleval_f1_symm_witness :
    conlleval_f1 ([['B', '-', 'P'], ['O']], [['O'], ['O']]) =
      conlleval_f1 ([['O'], ['O']], [['B', '-', 'P'], ['O']]) :=
  conlleval_f1_symm _ _ (by decide)

lemma get_result_some_of_ne (cc : List (List Char))
    (tc pc : List (Option (List Char))) (ccnt tcnt : List (List Char))
    (h1 : tcnt.length ≠ 0) :
    ∃ res, get_result cc tc pc ccnt tcnt = some res := by
  unfold get_result
  rw [if_neg h1]
  exact ⟨_, rfl⟩

lemma get_result_acc_non0_zero (cc : List (List Char))
    (tc pc : List (Option (List Char))) (ccnt tcnt : List (List Char))
    (h1 : tcnt.length ≠ 0)
    (h2 : (tcnt.filter (fun k => decide (k ≠ oTag))).length = 0) :
    ∃ res, get_result cc tc pc ccnt tcnt = some res ∧ res.2.1 = 0 := by
  unfold get_result
  rw [if_neg h1]
  refine ⟨_, rfl, ?_⟩
  exact if_neg (by rw [h2]; simp)

/-- C4 counterexample: on the pair of two empty tag sequences the gold side
has zero non-`'O'` tags, yet `conlleval_acc_non0` raises a
`ZeroDivisionError` (modelled as `none`) instead of returning 0.0, because
`_get_result` divides by the total tag count before reaching the guarded
non-`'O'` accuracy. -/
theorem acc_non0_empty_raises : conlleval_acc_non0 (([], [])) = none := by rfl

/-- C4 (amended): precision is 0 when there are no predicted chunks, recall
is 0 when there are no true chunks, F1 is 0 when precision + recall is 0, and
on every pair of nonempty tag sequences whose gold tags are all `'O'` (so
zero non-`'O'` gold tags) `conlleval_acc_non0` returns 0 — with no division
error in any of these cases. The all-empty input is excluded: there the
unguarded overall-accuracy division raises first. -/
theorem degenerate_metric_guards :
    (∀ tp t : ℕ, (calc_metrics tp 0 t).1 = 0) ∧
    (∀ tp p : ℕ, (calc_metrics tp p 0).2.1 = 0) ∧
    (∀ tp p t : ℕ, (calc_metrics tp p t).1 + (calc_metrics tp p t).2.1 = 0 →
      (calc_metrics tp p t).2.2 = 0) ∧
    (∀ gs ps : List (List Char), gs ≠ [] → ps ≠ [] →
      (∀ t ∈ gs, t = oTag) → (∀ t ∈ ps, ValidTag t) →
      conlleval_acc_non0 (gs, ps) = some 0) := by
  refine ⟨?_, ?_, ?_, ?_⟩
  · intro tp t; simp [calc_metrics]
  · intro tp p; simp [calc_metrics]
  · intro tp p t h
    simp only [calc_metrics] at h ⊢
    exact if_neg (not_not_intro h)
  · intro gs ps hgs hps hgO hpv
    have hgv : ∀ t ∈ gs, ValidTag t := fun t ht => (hgO t ht) ▸ validTag_O
    obtain ⟨st', hloop, -, htcnt, -, -⟩ :=
      ccLoop_run (gs.zip ps) ccInit (zip_valid hgv hpv) validTag_O validTag_O
    have htcnt' : (ccFinal st').tcnt = (gs.zip ps).map Prod.fst := by
      rw [ccFinal_tcnt, htcnt]; simp [ccInit]
    have hzlen : (gs.zip ps).length ≠ 0 := by
      cases gs with
      | nil => exact absurd rfl hgs
      | cons a l1 =>
        cases ps with
        | nil => exact absurd rfl hps
        | cons b l2 => simp [List.zip_cons_cons]
    have hlen0 : (ccFinal st').tcnt.length ≠ 0 := by
      rw [htcnt']; simpa using hzlen
    have hfilter : ((ccFinal st').tcnt.filter (fun k => decide (k ≠ oTag))).length = 0 := by
      rw [htcnt']
      have : ((gs.zip ps).map Prod.fst).filter (fun k => decide (k ≠ oTag)) = [] := by
        rw [List.filter_eq_nil]
        intro a ha
        obtain ⟨pr, hpr, rfl⟩ := List.mem_map.mp ha
        have := hgO pr.1 (List.of_mem_zip hpr).1
        simp [this]
      rw [this]
      rfl
    obtain ⟨res, hres, hval⟩ :=
      get_result_acc_non0_zero (ccFinal st').cc (ccFinal st').tc (ccFinal st').pc
        (ccFinal st').ccnt (ccFinal st').tcnt hlen0 hfilter
    simp only [conlleval_acc_non0, count_chunks, hloop, hres, hval]

/-- Witness for C4 at concrete degenerate inputs. -/
theorem degenerate_metric_guards_witness :
    (calc_metrics 3 0 2).1 = 0 ∧ conlleval_acc_non0 ([oTag], [oTag]) = some 0 :=
  ⟨degenerate_metric_guards.1 3 2,
    degenerate_metric_guards.2.2.2 [oTag] [oTag] (by decide) (by decide)
      (by decide) (by decide)⟩

/-- C9: on the pair of two empty tag sequences `conlleval_acc` raises a
`ZeroDivisionError` (modelled as `none`): the overall tag-accuracy divides by
the total tag count with no zero guard — in contrast with the precision,
recall and F1 computation, whose zero-denominator branches all return 0. -/
theorem acc_empty_division_raises :
    conlleval_acc (([], [])) = none ∧ calc_metrics 0 0 0 = (0, 0, 0) := by
  refine ⟨rfl, ?_⟩
  simp [calc_metrics]

lemma zip_eq_zip_take {α β : Type} :
    ∀ (l1 : List α) (l2 : List β),
      l1.zip l2 =
        (l1.take (min l1.length l2.length)).zip (l2.take (min l1.length l2.length)) := by
  intro l1
  induction l1 with
  | nil => intro l2; simp
  | cons a t1 ih =>
    intro l2
    cases l2 with
    | nil => simp
    | cons b t2 =>
      have hm : min (t1.length + 1) (t2.length + 1) = min t1.length t2.length + 1 := by
        omega
      simp only [List.zip_cons_cons, List.length_cons, hm, List.take_succ_cons]
      rw [← ih t2]

lemma length_zip_min {α β : Type} :
    ∀ (l1 : List α) (l2 : List β), (l1.zip l2).length = min l1.length l2.length := by
  intro l1
  induction l1 with
  | nil => intro l2; simp
  | cons a t1 ih =>
    intro l2
    cases l2 with
    | nil => simp
    | cons b t2 =>
      simp only [List.zip_cons_cons, List.length_cons, ih t2]
      omega

lemma scorer_not_none (gs ps : List (List Char))
    (hg : ∀ t ∈ gs, ValidTag t) (hp : ∀ t ∈ ps, ValidTag t)
    (hmin : min gs.length ps.length ≠ 0) :
    conlleval_f1 (gs, ps) ≠ none ∧ conlleval_acc (gs, ps) ≠ none ∧
      conlleval_acc_non0 (gs, ps) ≠ none := by
  obtain ⟨st', hloop, -, htcnt, -, -⟩ :=
    ccLoop_run (gs.zip ps) ccInit (zip_valid hg hp) validTag_O validTag_O
  have hlen0 : (ccFinal st').tcnt.length ≠ 0 := by
    rw [ccFinal_tcnt, htcnt]
    simp [ccInit, length_zip_min, hmin]
  obtain ⟨res, hres⟩ :=
    get_result_some_of_ne (ccFinal st').cc (ccFinal st').tc (ccFinal st').pc
      (ccFinal st').ccnt (ccFinal st').tcnt hlen0
  refine ⟨?_, ?_, ?_⟩ <;>
    simp [conlleval_f1, conlleval_acc, conlleval_acc_non0, count_chunks, hloop, hres]

/-- C10 counterexample: on the unequal-length pair `(["O"], [])` the scorer
raises (`conlleval_acc` divides by the zero length of the zipped common
prefix), so the entry points do not always avoid raising on unequal-length
input. -/
theorem scorer_unequal_empty_raises :
    conlleval_acc (([oTag], ([] : List (List Char)))) = none := by rfl

/-- C10 (amended): on every pair of well-formed tag sequences of unequal
length whose shorter side is nonempty, the three scorer entry points do not
raise, and each result equals the result on the two sequences truncated to
the common length — the extra tags of the longer sequence are ignored. When
the shorter side is empty the entry points raise a division error instead. -/
theorem scorer_truncates_to_common_length (gs ps : List (List Char))
    (hg : ∀ t ∈ gs, ValidTag t) (hp : ∀ t ∈ ps, ValidTag t)
    (hne : gs.length ≠ ps.length) (hmin : min gs.length ps.length ≠ 0) :
    (conlleval_f1 (gs, ps) ≠ none ∧ conlleval_acc (gs, ps) ≠ none ∧
      conlleval_acc_non0 (gs, ps) ≠ none) ∧
    conlleval_f1 (gs, ps) =
      conlleval_f1 (gs.take (min gs.length ps.length), ps.take (min gs.length ps.length)) ∧
    conlleval_acc (gs, ps) =
      conlleval_acc (gs.take (min gs.length ps.length), ps.take (min gs.length ps.length)) ∧
    conlleval_acc_non0 (gs, ps) =
      conlleval_acc_non0 (gs.take (min gs.length ps.length), ps.take (min gs.length ps.length)) := by
  refine ⟨scorer_not_none gs ps hg hp hmin, ?_, ?_, ?_⟩ <;>
    · simp only [conlleval_f1, conlleval_acc, conlleval_acc_non0, count_chunks]
      rw [← zip_eq_zip_take gs ps]

/-- Witness for C10 on the pair `(["O", "O"], ["O"])`. -/
theorem scorer_truncates_to_common_length_witness :
    (conlleval_f1 ([oTag, oTag], [oTag]) ≠ none ∧
      conlleval_acc ([oTag, oTag], [oTag]) ≠ none ∧
      conlleval_acc_non0 ([oTag, oTag], [oTag]) ≠ none) ∧
    conlleval_f1 ([oTag, oTag], [oTag]) =
      conlleval_f1 ([oTag, oTag].take (min [oTag, oTag].length [oTag].length),
        [oTag].take (min [oTag, oTag].length [oTag].length)) ∧
    conlleval_acc ([oTag, oTag], [oTag]) =
      conlleval_acc ([oTag, oTag].take (min [oTag, oTag].length [oTag].length),
        [oTag].take (min [oTag, oTag].length [oTag].length)) ∧
    conlleval_acc_non0 ([oTag, oTag], [oTag]) =
      conlleval_acc_non0 ([oTag, oTag].take (min [oTag, oTag].length [oTag].length),
        [oTag].take (min [oTag, oTag].length [oTag].length)) :=
  scorer_truncates_to_common_length _ _ (by decide) (by decide) (by decide) (by decide)

lemma getLast?_mem_nat : ∀ (l : List ℕ) (k : ℕ), l.getLast? = some k → k ∈ l := by
  intro l
  induction l with
  | nil => intro k h; simp at h
  | cons a t ih =>
    intro k h
    cases t with
    | nil => simp at h; simp [h]
    | cons b t2 =>
      rw [List.getLast?_cons_cons] at h
      exact List.mem_cons_of_mem a (ih k h)

lemma sorted_ub : ∀ (l : List ℕ), l.Pairwise (· < ·) →
    ∀ k, l.getLast? = some k → ∀ x ∈ l, x ≤ k := by
  intro l
  induction l with
  | nil => intro _ k _ x hx; simp at hx
  | cons a t ih =>
    intro hp k hlast x hx
    cases t with
    | nil =>
      simp at hlast
      subst hlast
      simp at hx
      omega
    | cons b t2 =>
      rw [List.getLast?_cons_cons] at hlast
      have hkmem := getLast?_mem_nat _ _ hlast
      rcases List.mem_cons.mp hx with rfl | hx2
      · have := (List.pairwise_cons.mp hp).1 k hkmem
        omega
      · exact ih (List.pairwise_cons.mp hp).2 k hlast x hx2

lemma sorted_getLast_max : ∀ (l : List ℕ), l.Pairwise (· < ·) →
    ∀ k ∈ l, (∀ x ∈ l, x ≤ k) → l.getLast? = some k := by
  intro l
  induction l with
  | nil => intro _ k hk; simp at hk
  | cons a t ih =>
    intro hp k hk hub
    cases t with
    | nil =>
      simp at hk
      simp [hk]
    | cons b t2 =>
      rw [List.getLast?_cons_cons]
      rcases List.mem_cons.mp hk with rfl | hk2
      · have hb := (List.pairwise_cons.mp hp).1 b (by simp)
        have := hub b (by simp)
        omega
      · exact ih (List.pairwise_cons.mp hp).2 k hk2
          (fun x hx => hub x (List.mem_cons_of_mem a hx))

lemma fencePositions_sorted (s : List Char) :
    (fencePositions s).Pairwise (· < ·) :=
  List.Pairwise.filter _ (List.pairwise_lt_range s.length)

lemma mem_fencePositions {s : List Char} {i : ℕ} :
    i ∈ fencePositions s ↔ i < s.length ∧ fenceAt s i = true := by
  simp [fencePositions, List.mem_filter, List.mem_range]

lemma fenceAt_getElem {s : List Char} {k : ℕ} (h : fenceAt s k = true) :
    s[k]? = fenceChars[0]? := by
  have hf : (s.drop k).take 3 = fenceChars := by simpa [fenceAt] using h
  have h1 : ((s.drop k).take 3)[0]? = fenceChars[0]? := by rw [hf]
  simpa using h1

lemma jsonAt_getElem {s : List Char} {i d : ℕ}
    (h : (s.drop (i + 3)).take 4 = jsonChars) (hd : d < 4) :
    s[i + 3 + d]? = jsonChars[d]? := by
  have h1 : ((s.drop (i + 3)).take 4)[d]? = jsonChars[d]? := by rw [h]
  rw [List.getElem?_take, if_pos hd, List.getElem?_drop] at h1
  exact h1

lemma fence_json_overlap {s : List Char} {i k : ℕ}
    (hjson : (s.drop (i + 3)).take 4 = jsonChars)
    (hfence : fenceAt s k = true) (h1 : i + 3 ≤ k) (h2 : k < i + 7) : False := by
  set d := k - (i + 3) with hdd
  have hd : d < 4 := by omega
  have hk : k = i + 3 + d := by omega
  have e2 := jsonAt_getElem hjson hd
  rw [← hk, fenceAt_getElem hfence] at e2
  interval_cases d <;> exact absurd e2 (by decide)

lemma group2_eq {s : List Char} {i k : ℕ}
    (hh : (fencePositions s).head? = some i)
    (hk : (fencePositions s).getLast? = some k)
    (hik : i + 3 ≤ k) :
    group2 s = some ((s.drop (jmContentStart s i)).take (k - jmContentStart s i)) := by
  obtain ⟨rest, hfps⟩ : ∃ rest, fencePositions s = i :: rest := by
    cases hf : fencePositions s with
    | nil => rw [hf] at hh; simp at hh
    | cons a t =>
      rw [hf] at hh
      simp at hh
      exact ⟨t, by rw [hh]⟩
  have hkmem : k ∈ fencePositions s := getLast?_mem_nat _ _ hk
  have hsorted := fencePositions_sorted s
  have hub := sorted_ub _ hsorted k hk
  have hsearch : searchStart s = some i := by
    unfold searchStart
    rw [hfps]
    apply List.find?_cons_of_pos
    rw [hfps] at hkmem
    simp only [List.any_eq_true]
    exact ⟨k, hkmem, by simpa using hik⟩
  have hkc : jmContentStart s i ≤ k := by
    unfold jmContentStart
    by_cases hj : jsonTagAt s i = true
    · rw [if_pos hj]
      by_contra hlt
      push_neg at hlt
      have hjs : (s.drop (i + 3)).take 4 = jsonChars := by
        unfold jsonTagAt at hj
        simp at hj
        exact hj.1
      exact fence_json_overlap hjs (mem_fencePositions.mp hkmem).2 hik (by omega)
    · rw [if_neg hj]
      exact hik
  have hfilter :
      ((fencePositions s).filter (fun j => decide (jmContentStart s i ≤ j))).getLast? =
        some k := by
    apply sorted_getLast_max
    · exact List.Pairwise.filter _ hsorted
    · rw [List.mem_filter]
      exact ⟨hkmem, by simpa using hkc⟩
    · intro x hx
      exact hub x (List.mem_filter.mp hx).1
  simp only [group2, hsearch, hfilter]

/-- C5: whenever the direct JSON parse of a string fails and the string has a
first fence at `i` and a last fence at `k` disjoint from it (`i + 3 ≤ k`),
the markdown fallback parses exactly the stripped slice between the content
start of the first opening fence (skipping an optional `json` language tag)
and the LAST fence of the whole string — the DOTALL greedy `(.*)` runs to the
last fence, not to the first closing fence. -/
theorem json_markdown_greedy_to_last_fence {ε υ : Type}
    (loads : List Char → Except ε υ) (s : List Char) (e : ε) (i k : ℕ)
    (hl : loads s = Except.error e)
    (hh : (fencePositions s).head? = some i)
    (hk : (fencePositions s).getLast? = some k)
    (hik : i + 3 ≤ k) :
    parse_json_markdown loads s =
      loads (pyStrip ((s.drop (jmContentStart s i)).take (k - jmContentStart s i))) := by
  unfold parse_json_markdown
  rw [hl, group2_eq hh hk hik]

/-- C6: the markdown JSON filter first tries the direct parse and returns its
result on success; on a parse error it falls back exactly once — to parsing
the stripped fenced-block content when the pattern matches — and re-raises
the original error when no fenced block is found. -/
theorem parse_json_markdown_fallback {ε υ : Type}
    (loads : List Char → Except ε υ) (s : List Char) :
    (∀ v, loads s = Except.ok v → parse_json_markdown loads s = Except.ok v) ∧
    (∀ e, loads s = Except.error e → group2 s = none →
      parse_json_markdown loads s = Except.error e) ∧
    (∀ e c, loads s = Except.error e → group2 s = some c →
      parse_json_markdown loads s = loads (pyStrip c)) := by
  refine ⟨?_, ?_, ?_⟩
  · intro v hv
    simp [parse_json_markdown, hv]
  · intro e he hg
    simp [parse_json_markdown, he, hg]
  · intro e c he hg
    simp [parse_json_markdown, he, hg]

/-- Witness for C5 on the two-block string: the extracted content runs from
the first opening fence to the LAST fence, across the middle fences. -/
theorem json_markdown_greedy_to_last_fence_witness :
    parse_json_markdown loadsFail sFences =
      loadsFail (pyStrip ((sFences.drop (jmContentStart sFences 0)).take
        (12 - jmContentStart sFences 0))) :=
  json_markdown_greedy_to_last_fence loadsFail sFences 7 0 12 rfl (by decide)
    (by decide) (by decide)

/-- Witness for C6 on the fenced string around `1`. -/
theorem parse_json_markdown_fallback_witness :
    parse_json_markdown loadsOne sFence1 = loadsOne (pyStrip ['1']) :=
  (parse_json_markdown_fallback loadsOne sFence1).2.2 5 ['1'] rfl (by decide)

lemma mapME_ok_length {α β ε : Type} (f : α → Except ε β) :
    ∀ (xs : List α) (ys : List β), mapME f xs = Except.ok ys → ys.length = xs.length := by
  intro xs
  induction xs with
  | nil =>
    intro ys h
    simp [mapME] at h
    simp [← h]
  | cons a as ih =>
    intro ys h
    unfold mapME at h
    cases hf : f a with
    | error e => rw [hf] at h; simp at h
    | ok b =>
      rw [hf] at h
      cases hr : mapME f as with
      | error e => rw [hr] at h; simp at h
      | ok bs =>
        rw [hr] at h
        simp at h
        subst h
        simp [ih bs hr]

lemma mapME_shape {A B ε : Type} (g : List A → Except ε (List B))
    (hg : ∀ x y, g x = Except.ok y → y.length = x.length) :
    ∀ (resps : List (List A)) (out : List (List B)),
      mapME g resps = Except.ok out → batchShape out = batchShape resps := by
  intro resps
  induction resps with
  | nil =>
    intro out h
    simp [mapME] at h
    simp [batchShape, ← h]
  | cons r rs ih =>
    intro out h
    unfold mapME at h
    cases h1 : g r with
    | error e => rw [h1] at h; simp at h
    | ok b =>
      rw [h1] at h
      cases h2 : mapME g rs with
      | error e => rw [h2] at h; simp at h
      | ok bs =>
        rw [h2] at h
        simp at h
        subst h
        have hb := hg r b h1
        have hbs := ih bs h2
        simp [batchShape] at hbs ⊢
        exact ⟨hb, hbs⟩

lemma batchShape_map_map {α γ : Type} (f : List α → List γ)
    (hf : ∀ x, (f x).length = x.length) (resps : List (List α)) :
    batchShape (resps.map f) = batchShape resps := by
  unfold batchShape
  induction resps with
  | nil => rfl
  | cons r rs ih => simp_all

/-- C7: each of the five filters maps instance-wise and sample-wise: whenever
`apply` returns (without raising, for the fallible filters), the output batch
has exactly the shape of the input batch — same number of instances, each of
the same length, in order — and the `documents` argument has no effect on the
result. -/
theorem filters_preserve_shape {δ K V κ β ε υ : Type} [DecidableEq K] :
    (∀ (resps : List (List (List Char))) (docs docs' : List δ),
      batchShape (lowercase_apply resps docs) = batchShape resps ∧
      lowercase_apply resps docs = lowercase_apply resps docs') ∧
    (∀ (resps : List (List (List Char))) (docs docs' : List δ),
      batchShape (uppercase_apply resps docs) = batchShape resps ∧
      uppercase_apply resps docs = uppercase_apply resps docs') ∧
    (∀ (mapping : List (K × V)) (dv : V) (resps : List (List K)) (docs docs' : List δ),
      batchShape (map_apply mapping dv resps docs) = batchShape resps ∧
      map_apply mapping dv resps docs = map_apply mapping dv resps docs') ∧
    (∀ (cast : κ → Except ε β) (resps : List (List κ)) (docs docs' : List δ)
        (out : List (List β)),
      (cast_apply cast resps docs = Except.ok out → batchShape out = batchShape resps) ∧
      cast_apply cast resps docs = cast_apply cast resps docs') ∧
    (∀ (loads : List Char → Except ε υ) (resps : List (List (List Char)))
        (docs docs' : List δ) (out : List (List υ)),
      (parse_json_apply loads resps docs = Except.ok out →
        batchShape out = batchShape resps) ∧
      parse_json_apply loads resps docs = parse_json_apply loads resps docs') := by
  refine ⟨?_, ?_, ?_, ?_, ?_⟩
  · intro resps docs docs'
    exact ⟨batchShape_map_map _ (fun x => by simp) resps, rfl⟩
  · intro resps docs docs'
    exact ⟨batchShape_map_map _ (fun x => by simp) resps, rfl⟩
  · intro mapping dv resps docs docs'
    exact ⟨batchShape_map_map _ (fun x => by simp) resps, rfl⟩
  · intro cast resps docs docs' out
    exact ⟨fun h => mapME_shape _ (mapME_ok_length cast) resps out h, rfl⟩
  · intro loads resps docs docs' out
    exact ⟨fun h => mapME_shape _ (mapME_ok_length (parse_json_markdown loads)) resps out h,
      rfl⟩

/-- Witness for C7: the lowercase filter and the cast filter at concrete
batches. -/
theorem filters_preserve_shape_witness :
    batchShape (lowercase_apply [[['A'], ['B']]] ([] : List ℕ)) =
        batchShape [[['A'], ['B']]] ∧
      batchShape [[(2 : ℕ), 3]] = batchShape [[(1 : ℕ), 2]] :=
  ⟨((@filters_preserve_shape ℕ ℕ ℕ ℕ ℕ ℕ ℕ _).1 [[['A'], ['B']]] [] []).1,
    ((@filters_preserve_shape ℕ ℕ ℕ ℕ ℕ ℕ ℕ _).2.2.2.1
      (fun n => Except.ok (n + 1)) [[1, 2]] [] [] [[2, 3]]).1 (by rfl)⟩

/-- C8: constructing the cast filter with any type name outside the fixed
13-name allow-list fails the assertion immediately (no fallback, no default),
and constructing the map filter with any provided mapping argument that is
not a key-value table fails its `isinstance` assertion. -/
theorem construction_validation {K V W : Type} :
    (∀ dtype : String, dtype ∉ castDtypeNames → cast_to_dtype_init dtype = none) ∧
    (∀ default_value : W,
      map_filter_init (MapArg.other : MapArg K V) default_value = none) := by
  refine ⟨?_, ?_⟩
  · intro d hd
    simp [cast_to_dtype_init, hd]
  · intro dv
    rfl

/-- Witness for C8 at the rejected name `"int32"` and a non-dict argument. -/
theorem construction_validation_witness :
    cast_to_dtype_init "int32" = none ∧
      map_filter_init (MapArg.other : MapArg ℕ ℕ) (0 : ℕ) = none :=
  ⟨(@construction_validation ℕ ℕ ℕ).1 "int32" (by decide),
    (@construction_validation ℕ ℕ ℕ).2 0⟩
